import Mathlib

/-!
Verification of the `lss-cfar` repository: a linear state-space sequence
model (`model.py`) and a YOLO+SAM detection script
(`yolov8_sam/detect_multi_object_SAM.py`).

The numeric code is embedded over exact rationals `ℚ` (reals `ℝ` where the
source computes square roots).  Calls into the tensor library that compute
transcendental functions (sigmoid, GELU, LayerNorm) are modelled as abstract
function parameters; the composite `rfft` / pointwise-product / `irfft`
pipeline is modelled by its exact mathematical semantics, cyclic
convolution.  Shapes are specialised to a single feature/channel slice where
the source merely maps the same scalar computation over batch dimensions.

The file is organised as: all definitions first, then all lemmas and
theorems.
-/

namespace LssCfar

/-! ## Definitions -/

/-! ### Krylov matrix by repeated squaring (`model.py`, `krylov`, lines 19-41)

A "matrix with columns v0, v1, ..." is embedded as the list of its columns,
each column a vector `Fin n → ℚ`.  The `while` loop of the source is embedded
with an explicit fuel argument (the loop at least doubles the number of
columns per iteration, so `L` units of fuel are always enough; the
equivalence theorem proves this). -/

/-- One source loop of `krylov`: `l = x.shape[-1]`; if `L - l <= l` the loop
finishes after appending `A_ @ x[..., :L-l]`, otherwise it appends `A_ @ x`
and squares `A_`. -/
def krylovGo {n : ℕ} : ℕ → Matrix (Fin n) (Fin n) ℚ → List (Fin n → ℚ) → ℕ →
    List (Fin n → ℚ)
  | 0, _, x, _ => x
  | fuel + 1, A, x, L =>
    let l := x.length
    if L - l ≤ l then
      x ++ (x.take (L - l)).map A.mulVec
    else
      krylovGo fuel (A * A) (x ++ x.map A.mulVec) L

/-- `krylov(L, A, b)` from the source: start from the single column `b`
(`b.unsqueeze(-1)`); `done = L == 1` skips the loop entirely for `L = 1`. -/
def krylov {n : ℕ} (L : ℕ) (A : Matrix (Fin n) (Fin n) ℚ) (b : Fin n → ℚ) :
    List (Fin n → ℚ) :=
  if L = 1 then [b] else krylovGo L A [b] L

/-- The naive Krylov sequence `b, Ab, A^2 b, ..., A^(L-1) b` described by the
spec ("repeated multiplication of a vector by a matrix"). -/
def krylovNaive {n : ℕ} (L : ℕ) (A : Matrix (Fin n) (Fin n) ℚ)
    (b : Fin n → ℚ) : List (Fin n → ℚ) :=
  (List.range L).map fun i => (A ^ i).mulVec b

/-! ### FFT-based causal convolution
(`model.py`, `triangular_toeplitz_multiply`, lines 9-17)

The source zero-pads `u` and `v` from length `n` to length `2n`
(`F.pad(u, (0, n))`), takes real FFTs, multiplies pointwise, inverts the FFT
and keeps the first `n` entries.  The composite
`irfft(rfft(a) * rfft(b), n=2n)` is the length-`2n` cyclic convolution of
`a` and `b` — that is the exact mathematical semantics of the three library
calls (the convolution theorem), and it is how the composite is embedded
here (`cyclicConv`). -/

/-- Zero-padding `F.pad(u, (0, n))` as a total function on `ℕ`:
entry `k` of the padded sequence, which is `u[k]` for `k < n` and `0`
beyond. -/
def padF (n : ℕ) (u : Fin n → ℚ) (k : ℕ) : ℚ :=
  if h : k < n then u ⟨k, h⟩ else 0

/-- Length-`m` cyclic convolution: the exact value of
`irfft(rfft(a) * rfft(b), n=m)` for length-`m` inputs `a`, `b`. -/
def cyclicConv (m : ℕ) (a b : Fin m → ℚ) : Fin m → ℚ :=
  fun i => ∑ j : Fin m, a j * b (i - j)

/-- `triangular_toeplitz_multiply(u, v)` from the source: pad both inputs to
length `2n`, convolve cyclically (= `rfft`/pointwise/`irfft`), keep the
first `n` entries. -/
def triangular_toeplitz_multiply (n : ℕ) (u v : Fin n → ℚ) : Fin n → ℚ :=
  fun i =>
    cyclicConv (2 * n) (fun j => padF n u j) (fun j => padF n v j)
      ⟨i, by omega⟩

/-! ### Kernel cache of `StateSpace.forward`
(`model.py`, lines 213-214 and 228-235)

`StateSpace.__init__` sets `self.k = None`; `StateSpace.forward` recomputes
`self.k = krylov(u.shape[0], gbt_A, gbt_B)` when
`self.k is None or u.shape[0] > self.k.shape[-1]`, and then convolves with
`self.k[..., :u.shape[0]]`.  The cache is embedded as
`Option (List (Fin n → ℚ))` (the list of kernel columns), with the layer's
discretized matrices `A`, `b` fixed. -/

/-- The new value of `self.k` after the conditional at the top of
`StateSpace.forward`: recompute via `krylov` iff the cache is empty or the
new sequence length `L` exceeds the cached kernel's length. -/
def stateSpaceCacheStep {n : ℕ} (A : Matrix (Fin n) (Fin n) ℚ)
    (b : Fin n → ℚ) (cache : Option (List (Fin n → ℚ))) (L : ℕ) :
    List (Fin n → ℚ) :=
  match cache with
  | none => krylov L A b
  | some k => if k.length < L then krylov L A b else k

/-- The kernel actually fed to the convolution:
`self.k[..., :u.shape[0]]`. -/
def stateSpaceUsedKernel {n : ℕ} (A : Matrix (Fin n) (Fin n) ℚ)
    (b : Fin n → ℚ) (cache : Option (List (Fin n → ℚ))) (L : ℕ) :
    List (Fin n → ℚ) :=
  (stateSpaceCacheStep A b cache L).take L

/-! ### HiPPO-LegT state matrices (`model.py`, `hippo`, lines 44-52, and
`AdaptiveTransition.__init__`, lines 60-77)

`hippo(N)` computes `Q = arange(N)`, `R = (2Q+1)**.5`,
`j, i = np.meshgrid(Q, Q)` (so at entry `(a, b)`: `i = a`, `j = b`),
`A = -(R[:, None] * np.where(i < j, (-1.)**(i-j), 1) * R[None, :])` and
`B = R[:, None]`.  `(-1.)**(i-j)` has an integer-valued (possibly negative)
exponent, embedded as a `zpow` on `ℝ`.  `AdaptiveTransition.__init__`
stores `A` and the first column `B[:, 0]` as its transition buffers. -/

/-- `R[q] = (2*q + 1) ** .5` from `hippo`. -/
noncomputable def hippoR (q : ℕ) : ℝ := Real.sqrt (2 * q + 1)

/-- The matrix `A` returned by `hippo(N)` (after the final `A = -A`). -/
noncomputable def hippoA (N : ℕ) : Matrix (Fin N) (Fin N) ℝ :=
  Matrix.of fun a b =>
    -(hippoR (a : ℕ) *
        (if (a : ℕ) < (b : ℕ) then (-1 : ℝ) ^ ((a : ℤ) - (b : ℤ)) else 1) *
      hippoR (b : ℕ))

/-- The `N×1` column `B = R[:, None]` returned by `hippo(N)`. -/
noncomputable def hippoB (N : ℕ) : Matrix (Fin N) (Fin 1) ℝ :=
  Matrix.of fun a _ => hippoR (a : ℕ)

/-- The `A` buffer registered by `AdaptiveTransition.__init__`. -/
noncomputable def adaptiveTransitionA (N : ℕ) : Matrix (Fin N) (Fin N) ℝ :=
  hippoA N

/-- The `B` buffer registered by `AdaptiveTransition.__init__`
(`B = torch.as_tensor(B)[:, 0]`). -/
noncomputable def adaptiveTransitionB (N : ℕ) : Fin N → ℝ :=
  fun a => hippoB N a 0

/-! ### `LSSLModel.forward` (`model.py`, lines 269-312)

The input `x` has shape `(L, B)`; it is embedded as a function
`ι → Fin (b + 1) → ℚ` (`ι` the sequence index, `Fin (b + 1)` the last
dimension — `torch.max(dim=-1)` requires it nonempty).  `__init__` builds
`num_layers` StateSpace layers and as many LayerNorms; a layer and a norm
are opaque tensor-to-tensor functions here (their internals involve GELU /
LayerNorm transcendentals), embedded as abstract functions on the expanded
tensor type, zipped exactly as the source zips `self.layers` and
`self.norms`.  `F.sigmoid` is likewise an abstract `sigma : ℚ → ℚ`. -/

/-- `x.unsqueeze(-1).expand(-1, -1, self.d)`: broadcast the input to hidden
width `d + 1`. -/
def expandInput {ι : Type} (b d : ℕ) (u : ι → Fin (b + 1) → ℚ) :
    ι → Fin (b + 1) → Fin (d + 1) → ℚ :=
  fun t i _ => u t i

/-- `x.mean(dim=-1)`: average over the hidden dimension. -/
def meanHidden {ι : Type} {b : ℕ} (d : ℕ)
    (x : ι → Fin (b + 1) → Fin (d + 1) → ℚ) : ι → Fin (b + 1) → ℚ :=
  fun t i => (∑ j : Fin (d + 1), x t i j) / (d + 1)

/-- `x.max(dim=-1)` on one last-dimension row. -/
def rowMax {b : ℕ} (g : Fin (b + 1) → ℚ) : ℚ :=
  Finset.univ.sup' Finset.univ_nonempty g

/-- The loop `for layer, norm in zip(self.layers, self.norms):
x = x + layer(norm(x))` of `LSSLModel.forward`, as the source's fold over
the zipped module lists. -/
def lsslStack {ι : Type} {b d : ℕ}
    (layers norms :
      List ((ι → Fin (b + 1) → Fin (d + 1) → ℚ) →
        ι → Fin (b + 1) → Fin (d + 1) → ℚ))
    (x0 : ι → Fin (b + 1) → Fin (d + 1) → ℚ) :
    ι → Fin (b + 1) → Fin (d + 1) → ℚ :=
  (layers.zip norms).foldl (fun x p => x + p.1 (p.2 x)) x0

/-- The gated signal `x = F.sigmoid(x); x = x * x_init` of
`LSSLModel.forward` (lines 297-299), after the stack and the hidden-mean. -/
def lsslGateSignal {ι : Type} {b d : ℕ}
    (layers norms :
      List ((ι → Fin (b + 1) → Fin (d + 1) → ℚ) →
        ι → Fin (b + 1) → Fin (d + 1) → ℚ))
    (sigma : ℚ → ℚ) (u : ι → Fin (b + 1) → ℚ) : ι → Fin (b + 1) → ℚ :=
  fun t i =>
    sigma (meanHidden d (lsslStack layers norms (expandInput b d u)) t i) *
      u t i

/-- The thresholding `max_val = x.max(dim=-1, keepdim=True)[0];
threshold = 0.99 * max_val; x = torch.where(x >= threshold, x, zeros)`
(lines 301-303). -/
def lsslThreshold {ι : Type} {b : ℕ} (g : ι → Fin (b + 1) → ℚ) :
    ι → Fin (b + 1) → ℚ :=
  fun t i => if g t i ≥ 99 / 100 * rowMax (g t) then g t i else 0

/-- `LSSLModel.forward`: clone the input, expand, run the residual stack,
average over the hidden dimension, sigmoid-gate against the original input
and threshold at 99% of the row maximum. -/
def lsslForward {ι : Type} {b d : ℕ}
    (layers norms :
      List ((ι → Fin (b + 1) → Fin (d + 1) → ℚ) →
        ι → Fin (b + 1) → Fin (d + 1) → ℚ))
    (sigma : ℚ → ℚ) (u : ι → Fin (b + 1) → ℚ) : ι → Fin (b + 1) → ℚ :=
  lsslThreshold (lsslGateSignal layers norms sigma u)

/-- The residual recursion described by the spec: starting from `x`, each
`(layer, norm)` pair in order replaces `x` by `x + layer(norm(x))`. -/
def residualChain {α : Type} [Add α] : List ((α → α) × (α → α)) → α → α
  | [], x => x
  | p :: rest, x => residualChain rest (x + p.1 (p.2 x))

/-! ### Exception propagation from `LegTTransitionDense.inverse_mult`
(`model.py`, lines 80-175 and 222-312; claim C7)

`torch.linalg.solve` raises on a singular matrix, and the repository
contains no `try`/`except`: failure is embedded as `Option` (`none` = the
raised exception), with every caller binding the result without handling
it.  Over `ℚ` the solve fails exactly when `det(I - delta*A) = 0`; on
success it returns the unique solution, written with the adjugate to stay
computable.  A single feature/channel/batch slice is embedded
(`H = M = B = 1`; the source maps the same scalar computation over those
dimensions), the GELU activation and the LayerNorms are abstract function
parameters, and dropout is at evaluation scale (identity). -/

/-- `torch.linalg.solve M u`: `none` models the library exception on a
singular matrix, otherwise the unique solution `M⁻¹ u` via the adjugate. -/
def linSolve {n : ℕ} (M : Matrix (Fin n) (Fin n) ℚ) (u : Fin n → ℚ) :
    Option (Fin n → ℚ) :=
  if M.det = 0 then none else some (M.det⁻¹ • M.adjugate.mulVec u)

/-- `LegTTransitionDense.forward_mult` (lines 151-158):
`x = A @ u; u + delta * x`. -/
def forwardMult {n : ℕ} (A : Matrix (Fin n) (Fin n) ℚ) (u : Fin n → ℚ)
    (delta : ℚ) : Fin n → ℚ :=
  u + delta • A.mulVec u

/-- `LegTTransitionDense.inverse_mult` (lines 160-175): solve
`(I - delta*A) x = u`. -/
def inverseMult {n : ℕ} (A : Matrix (Fin n) (Fin n) ℚ) (u : Fin n → ℚ)
    (delta : ℚ) : Option (Fin n → ℚ) :=
  linSolve (1 - delta • A) u

/-- `AdaptiveTransition.bilinear` (lines 117-129):
`x = forward_mult(u, (1-alpha)*dt); v = dt*v; x = x + v*B;
inverse_mult(x, alpha*dt)`. -/
def bilinearT {n : ℕ} (A : Matrix (Fin n) (Fin n) ℚ) (B : Fin n → ℚ)
    (dt : ℚ) (u : Fin n → ℚ) (v : ℚ) (alpha : ℚ) : Option (Fin n → ℚ) :=
  inverseMult A (forwardMult A u ((1 - alpha) * dt) + (dt * v) • B)
    (alpha * dt)

/-- `AdaptiveTransition.gbt_A(dt)` (lines 131-141, default `alpha = 1/2`):
batched `bilinear` over the rows of `I` (row `i` of `I` is the basis vector
`e_i`), rearranged `n ... m -> ... m n` so the result has entries
`A'[m][i] = bilinear(dt, e_i, 0)[m]`; a failed solve in any column is the
raised exception (`none`). -/
def gbtA {n : ℕ} (A : Matrix (Fin n) (Fin n) ℚ) (B : Fin n → ℚ) (dt : ℚ) :
    Option (Matrix (Fin n) (Fin n) ℚ) :=
  if h : ∀ i : Fin n,
      (bilinearT A B dt (fun j => if i = j then 1 else 0) 0 (1 / 2)).isSome
    then
    some (Matrix.of fun m i =>
      (bilinearT A B dt (fun j => if i = j then 1 else 0) 0 (1 / 2)).get
        (h i) m)
  else none

/-- `AdaptiveTransition.gbt_B(dt)` (lines 143-145, default `alpha = 1/2`):
`bilinear(dt, zeros(N), ones(1))`. -/
def gbtB {n : ℕ} (A : Matrix (Fin n) (Fin n) ℚ) (B : Fin n → ℚ) (dt : ℚ) :
    Option (Fin n → ℚ) :=
  bilinearT A B dt 0 1 (1 / 2)

/-- The kernel computation of a first `StateSpace.forward` call
(`self.k is None`, lines 229-232): `krylov(L, gbt_A(dt), gbt_B(dt))`. -/
def ssKernel {n : ℕ} (A : Matrix (Fin n) (Fin n) ℚ) (B : Fin n → ℚ)
    (dt : ℚ) (L : ℕ) : Option (List (Fin n → ℚ)) :=
  match gbtA A B dt, gbtB A B dt with
  | some Ad, some Bd => some (krylov L Ad Bd)
  | _, _ => none

/-- The parameters of one `StateSpace` layer specialised to a
single-feature, single-channel slice (`H = M = 1`): HiPPO transition
buffers `A`, `B`; the timescale `dt`; the `C` and `D` projections (`c`,
`dproj`); the GELU activation as an abstract `act`; the `1×1`
`output_linear` weight `w` and bias. -/
structure SSLayer (n L : ℕ) where
  A : Matrix (Fin n) (Fin n) ℚ
  B : Fin n → ℚ
  dt : ℚ
  c : Fin n → ℚ
  dproj : ℚ
  act : ℚ → ℚ
  w : ℚ
  bias : ℚ

/-- `StateSpace.forward` on a first call (lines 222-243 with
`linear_system_from_krylov`, lines 245-267): derive the kernel, contract it
with `C`, convolve causally with the input, add `D*u`, apply the
activation (dropout = identity in eval mode) and the output linear map.  A
raised exception in the kernel derivation propagates. -/
def ssForwardE {n L : ℕ} (p : SSLayer n L) (u : Fin L → ℚ) :
    Option (Fin L → ℚ) :=
  (ssKernel p.A p.B p.dt L).map fun k =>
    let kc : Fin L → ℚ := fun li => Matrix.dotProduct p.c (k.getD (li : ℕ) 0)
    let y : Fin L → ℚ := fun li =>
      triangular_toeplitz_multiply L kc u li + u li * p.dproj
    fun li => p.w * p.act (y li) + p.bias

/-- The residual loop of `LSSLModel.forward` over fallible layers (each
paired with its LayerNorm, abstract here): an exception raised by any layer
aborts the loop. -/
def lsslStackE {n L : ℕ} :
    List (SSLayer n L × ((Fin L → ℚ) → Fin L → ℚ)) → (Fin L → ℚ) →
      Option (Fin L → ℚ)
  | [], x => some x
  | (p, nf) :: rest, x =>
    match ssForwardE p (nf x) with
    | none => none
    | some y => lsslStackE rest (x + y)

/-- `LSSLModel.forward` on the same slice: residual stack, mean over the
(width-1) hidden dimension, sigmoid gate against the original input,
threshold at 99% of the (width-1) row maximum; an exception anywhere
terminates the whole pass. -/
def lsslForwardE {n L : ℕ}
    (ps : List (SSLayer n L × ((Fin L → ℚ) → Fin L → ℚ)))
    (sigma : ℚ → ℚ) (u : Fin L → ℚ) : Option (Fin L → ℚ) :=
  (lsslStackE ps u).map fun x =>
    let g : Fin L → ℚ := fun t => sigma (x t) * u t
    fun t => if g t ≥ 99 / 100 * g t then g t else 0

/-- A concrete singular layer for `n = L = 1`: the HiPPO-LegT buffers
`A = [[-1]]`, `B = (1)` with `dt = -2`, so that
`I - (dt/2)*A = [[0]]` is singular and the solve inside `inverse_mult`
raises. -/
def ssLayerSingular : SSLayer 1 1 :=
  ⟨Matrix.of ![![(-1 : ℚ)]], ![1], -2, ![1], 0, fun q => q, 1, 0⟩

/-! ### Detection script (`yolov8_sam/detect_multi_object_SAM.py`,
lines 43-99; claims C5, C6)

The script runs YOLO and SAM (opaque pretrained models) and then, for each
predicted mask, extracts the mask's OpenCV contours and writes two text
files.  The vision models and pixel rasterisation live outside the
repository, so the embedding starts from their outputs: a list of masks,
each given by its list of contours (an OpenCV contour = list of integer
pixel points `(x, y)`).  `cv2.boundingRect` is the tight upright rectangle
(`w = max x - min x + 1`); `cv2.contourArea` is Green's-formula (shoelace)
area; Python's `max(contours, key=cv2.contourArea)` keeps the first
maximiser and raises `ValueError` on an empty sequence, which aborts the
loop before either file is touched in that iteration.  Numeric values
written to the files are embedded exactly (the `"{:.6f}"` decimal rounding
of the final `write` calls is elided). -/

/-- An OpenCV contour: a list of integer pixel points `(x, y)`. -/
abbrev Contour := List (ℤ × ℤ)

/-- `cv2.boundingRect`: `x, y` the minimal coordinates, `w, h` the
inclusive extents (`max - min + 1`). -/
structure Rect where
  x : ℤ
  y : ℤ
  w : ℤ
  h : ℤ

/-- `cv2.boundingRect(contour)` (the `[]` case never arises: OpenCV
rejects an empty contour, and every use here is guarded by nonemptiness
hypotheses). -/
def boundingRect : Contour → Rect
  | [] => ⟨0, 0, 0, 0⟩
  | q :: rest =>
    let xmin := (rest.map Prod.fst).foldl min q.1
    let ymin := (rest.map Prod.snd).foldl min q.2
    let xmax := (rest.map Prod.fst).foldl max q.1
    let ymax := (rest.map Prod.snd).foldl max q.2
    ⟨xmin, ymin, xmax - xmin + 1, ymax - ymin + 1⟩

/-- Twice the signed shoelace area of a closed contour (consecutive edges
plus the wrap-around edge, via `rotate 1`). -/
def shoelace (c : Contour) : ℤ :=
  (c.zip (c.rotate 1)).foldl
    (fun s pq => s + (pq.1.1 * pq.2.2 - pq.2.1 * pq.1.2)) 0

/-- `cv2.contourArea(contour)`: absolute shoelace area halved. -/
def contourArea (c : Contour) : ℚ :=
  |(shoelace c : ℚ)| / 2

/-- The fold behind Python's `max(iterable, key=f)`: keep the current best,
replace it only on a strictly larger key (so the first maximiser wins). -/
def pickMax {α : Type} (f : α → ℚ) (a : α) (l : List α) : α :=
  l.foldl (fun best x => if f best < f x then x else best) a

/-- `max(contours, key=cv2.contourArea)` (line 50): `none` models the
`ValueError` raised on an empty contour list. -/
def maxByArea : List Contour → Option Contour
  | [] => none
  | c :: rest => some (pickMax contourArea c rest)

/-- The largest contour of a mask as a total function (meaningful whenever
the mask has at least one contour). -/
def largestContour (m : List Contour) : Contour :=
  (maxByArea m).getD []

/-- One line of `BBOX_yolo.txt`: either a data line `cls cx cy w h` or the
blank line produced by the extra `f.write("\n")`. -/
inductive BLine where
  | box (cls : ℕ) (cx cy w h : ℚ)
  | blank
deriving DecidableEq

/-- The `BBOX_yolo.txt` content written during one mask iteration
(lines 59-72): for each contour of that mask, the line
`0 (x + w/2)/W (y + h/2)/H w/W h/H` followed by a blank line
(`image.shape[1] = W` is the width, `image.shape[0] = H` the height). -/
def bboxLinesOfMask (m : List Contour) (W H : ℤ) : List BLine :=
  m.flatMap fun c =>
    [BLine.box 0
        ((((boundingRect c).x : ℚ) + ((boundingRect c).w : ℚ) / 2) / (W : ℚ))
        ((((boundingRect c).y : ℚ) + ((boundingRect c).h : ℚ) / 2) / (H : ℚ))
        (((boundingRect c).w : ℚ) / (W : ℚ))
        (((boundingRect c).h : ℚ) / (H : ℚ)),
      BLine.blank]

/-- The final content of `BBOX_yolo.txt` after the whole mask loop: each
iteration reopens the file with mode `"w"`, truncating it, so each
iteration replaces the content; a mask with no contours raises at
`max(contours, ...)` before the write, ending the loop with the previous
content; `none` = the file was never created. -/
def bboxFileFinal (W H : ℤ) :
    List (List Contour) → Option (List BLine) → Option (List BLine)
  | [], st => st
  | m :: rest, st =>
    match m with
    | [] => st
    | _ :: _ => bboxFileFinal W H rest (some (bboxLinesOfMask m W H))

/-- One line of `yolomask_format.txt` (lines 73-99): the largest contour
flattened to `x0 y0 x1 y1 ...` and normalised per coordinate
(`mask / [width, height]`). -/
def polyLine (c : Contour) (W H : ℤ) : List ℚ :=
  c.flatMap fun pt => [(pt.1 : ℚ) / (W : ℚ), (pt.2 : ℚ) / (H : ℚ)]

/-- The final content of `yolomask_format.txt` (initially absent) after the
mask loop: the file is opened with mode `"a"`, so each iteration appends
the single polygon line of its mask's largest contour; a mask with no
contours raises before any write of that iteration, ending the loop. -/
def maskFileFinal (W H : ℤ) :
    List (List Contour) → List (List ℚ) → List (List ℚ)
  | [], acc => acc
  | m :: rest, acc =>
    match maxByArea m with
    | none => acc
    | some c => maskFileFinal W H rest (acc ++ [polyLine c W H])

/-- A concrete two-mask scene (each mask with one contour), used to
evaluate the file-writing model at explicit inputs. -/
def masksExample : List (List Contour) :=
  [[[(0, 0)]], [[(1, 1), (3, 1), (3, 4), (1, 4)]]]

/-! ## Lemmas and theorems -/

/-! ### Krylov equivalence (claim C1) -/

lemma krylovNaive_length {n : ℕ} (L : ℕ) (A : Matrix (Fin n) (Fin n) ℚ)
    (b : Fin n → ℚ) : (krylovNaive L A b).length = L := by
  simp [krylovNaive]

lemma krylovNaive_map_pow {n : ℕ} (l m : ℕ) (A : Matrix (Fin n) (Fin n) ℚ)
    (b : Fin n → ℚ) :
    (krylovNaive m A b).map (A ^ l).mulVec =
      (List.range m).map fun i => (A ^ (l + i)).mulVec b := by
  simp only [krylovNaive, List.map_map]
  refine List.map_congr_left fun i _ => ?_
  simp [Function.comp, Matrix.mulVec_mulVec, pow_add]

lemma krylovNaive_take {n : ℕ} (L m : ℕ) (hLm : L ≤ m)
    (A : Matrix (Fin n) (Fin n) ℚ) (b : Fin n → ℚ) :
    (krylovNaive m A b).take L = krylovNaive L A b := by
  simp only [krylovNaive, ← List.map_take, List.take_range,
    Nat.min_eq_left hLm]

lemma krylovNaive_append {n : ℕ} (l m : ℕ) (A : Matrix (Fin n) (Fin n) ℚ)
    (b : Fin n → ℚ) :
    krylovNaive l A b ++
        ((List.range m).map fun i => (A ^ (l + i)).mulVec b) =
      krylovNaive (l + m) A b := by
  simp only [krylovNaive, List.range_add, List.map_append, List.map_map,
    Function.comp_def]

/-- Main loop invariant: starting from the first `l` naive Krylov columns and
the matrix power `A ^ l`, the squaring loop produces exactly the first `L`
naive columns, given enough fuel. -/
lemma krylovGo_eq_naive {n : ℕ} (A : Matrix (Fin n) (Fin n) ℚ)
    (b : Fin n → ℚ) :
    ∀ fuel l L, 1 ≤ l → l < L → L ≤ 2 ^ fuel * l →
      krylovGo fuel (A ^ l) (krylovNaive l A b) L = krylovNaive L A b := by
  intro fuel
  induction fuel with
  | zero =>
    intro l L hl hlL hfuel
    simp only [pow_zero, one_mul] at hfuel
    omega
  | succ fuel ih =>
    intro l L hl hlL hfuel
    rw [krylovGo]
    simp only [krylovNaive_length]
    by_cases hdone : L - l ≤ l
    · simp only [hdone, if_true]
      rw [krylovNaive_take _ _ (by omega), krylovNaive_map_pow]
      rw [krylovNaive_append]
      congr 1
      omega
    · simp only [hdone, if_false]
      have hx : krylovNaive l A b ++ (krylovNaive l A b).map (A ^ l).mulVec =
          krylovNaive (l + l) A b := by
        rw [krylovNaive_map_pow, krylovNaive_append]
      rw [hx, ← pow_add]
      refine ih (l + l) L (by omega) (by omega) ?_
      have h2 : 2 ^ fuel * (l + l) = 2 ^ (fuel + 1) * l := by ring
      omega

lemma krylov_eq_naive {n : ℕ} (L : ℕ) (hL : 1 ≤ L)
    (A : Matrix (Fin n) (Fin n) ℚ) (b : Fin n → ℚ) :
    krylov L A b = krylovNaive L A b := by
  unfold krylov
  by_cases h1 : L = 1
  · subst h1
    simp [krylovNaive, List.range_succ]
  · simp only [h1, if_false]
    have hx : krylovNaive 1 A b = [b] := by
      simp [krylovNaive, List.range_succ]
    have := krylovGo_eq_naive A b L 1 L le_rfl (by omega)
      (by simpa using (Nat.lt_two_pow L).le)
    rw [hx, pow_one] at this
    exact this

/-- C1: for every square matrix `A`, vector `b` and length `L ≥ 1`,
`krylov(L, A, b)` — the repeated-squaring implementation — returns exactly
the matrix whose `L` columns are `b, Ab, A²b, ..., A^(L-1)b`, i.e. the naive
Krylov sequence obtained by repeated multiplication of `b` by `A`. -/
theorem krylov_squaring_refines_naive {n : ℕ} (L : ℕ)
    (A : Matrix (Fin n) (Fin n) ℚ) (b : Fin n → ℚ) (hL : 1 ≤ L) :
    krylov L A b = krylovNaive L A b :=
  krylov_eq_naive L hL A b

/-- Witness for C1 at a concrete input: `L = 3`,
`A = [[1, 2], [3, 4]]`, `b = (1, 0)`. -/
theorem krylov_squaring_refines_naive_witness :
    1 ≤ 3 ∧
      krylov 3 (Matrix.of ![![(1 : ℚ), 2], ![3, 4]]) ![1, 0] =
        krylovNaive 3 (Matrix.of ![![(1 : ℚ), 2], ![3, 4]]) ![1, 0] :=
  ⟨by norm_num,
    krylov_squaring_refines_naive 3 (Matrix.of ![![(1 : ℚ), 2], ![3, 4]])
      ![1, 0] (by norm_num)⟩

/-! ### Causal convolution (claim C2) -/

lemma val_sub_cast {n : ℕ} (i : Fin n) (k : ℕ) (hk : k < 2 * n) :
    ((⟨(i : ℕ), by omega⟩ - ⟨k, hk⟩ : Fin (2 * n)) : ℕ) =
      ((i : ℕ) + (2 * n - k)) % (2 * n) := by
  rw [Fin.sub_def]
  simp [Nat.add_comm]

lemma cyclic_index_lt {n : ℕ} (i : Fin n) (k : ℕ) (hk : k ≤ (i : ℕ)) :
    ((i : ℕ) + (2 * n - k)) % (2 * n) = (i : ℕ) - k := by
  have hin := i.isLt
  have h1 : (i : ℕ) + (2 * n - k) = ((i : ℕ) - k) + 2 * n := by omega
  rw [h1, Nat.add_mod_right, Nat.mod_eq_of_lt (by omega)]

lemma cyclic_index_ge {n : ℕ} (i : Fin n) (k : ℕ) (hk1 : (i : ℕ) < k)
    (hk2 : k < n) : n ≤ ((i : ℕ) + (2 * n - k)) % (2 * n) := by
  have hin := i.isLt
  rw [Nat.mod_eq_of_lt (by omega)]
  omega

/-- The padded cyclic convolution, written as a `Finset.range` sum over the
first `n` indices (the padding kills everything else). -/
lemma ttm_eq_range_sum {n : ℕ} (u v : Fin n → ℚ) (i : Fin n) :
    triangular_toeplitz_multiply n u v i =
      ∑ k ∈ Finset.range n,
        (if k ≤ (i : ℕ) then padF n u k * padF n v ((i : ℕ) - k) else 0) := by
  unfold triangular_toeplitz_multiply cyclicConv
  have hstep : ∀ j : Fin (2 * n),
      padF n u (j : ℕ) *
          padF n v (((⟨(i : ℕ), by omega⟩ - j : Fin (2 * n))) : ℕ) =
        (fun k : ℕ =>
          if k < n then
            (if k ≤ (i : ℕ) then padF n u k * padF n v ((i : ℕ) - k) else 0)
          else 0) (j : ℕ) := by
    intro j
    rcases j with ⟨k, hk⟩
    simp only
    by_cases hkn : k < n
    · simp only [hkn, if_true]
      by_cases hki : k ≤ (i : ℕ)
      · simp only [hki, if_true]
        rw [val_sub_cast i k hk, cyclic_index_lt i k hki]
      · simp only [hki, if_false]
        have hv : padF n v
            (((⟨(i : ℕ), by omega⟩ - ⟨k, hk⟩ : Fin (2 * n))) : ℕ) = 0 := by
          rw [val_sub_cast i k hk]
          unfold padF
          rw [dif_neg]
          have := cyclic_index_ge i k (by omega) hkn
          omega
        rw [hv, mul_zero]
    · have hu : padF n u k = 0 := by
        unfold padF
        rw [dif_neg hkn]
      simp [hu]
  calc ∑ j : Fin (2 * n), padF n u (j : ℕ) *
          padF n v (((⟨(i : ℕ), by omega⟩ - j : Fin (2 * n))) : ℕ)
      = ∑ j : Fin (2 * n), (fun k : ℕ =>
          if k < n then
            (if k ≤ (i : ℕ) then padF n u k * padF n v ((i : ℕ) - k) else 0)
          else 0) (j : ℕ) := Finset.sum_congr rfl fun j _ => hstep j
    _ = ∑ k ∈ Finset.range (2 * n),
          (if k < n then
            (if k ≤ (i : ℕ) then padF n u k * padF n v ((i : ℕ) - k) else 0)
          else 0) :=
        Fin.sum_univ_eq_sum_range
          (fun k : ℕ => if k < n then
            (if k ≤ (i : ℕ) then padF n u k * padF n v ((i : ℕ) - k) else 0)
          else 0) (2 * n)
    _ = ∑ k ∈ Finset.range n,
          (if k < n then
            (if k ≤ (i : ℕ) then padF n u k * padF n v ((i : ℕ) - k) else 0)
          else 0) := by
        refine (Finset.sum_subset (Finset.range_subset.mpr (by omega)) ?_).symm
        intro k _ hk
        rw [if_neg (by simpa using hk)]
    _ = ∑ k ∈ Finset.range n,
          (if k ≤ (i : ℕ) then padF n u k * padF n v ((i : ℕ) - k) else 0) :=
        Finset.sum_congr rfl fun k hk => by
          rw [if_pos (Finset.mem_range.mp hk)]

/-- C2: for every pair of length-`n` sequences `u` and `v`,
`triangular_toeplitz_multiply(u, v)` — zero-pad to `2n`, real FFTs,
pointwise product, inverse FFT, first `n` entries — computes the causal
(lower-triangular Toeplitz) convolution
`output[i] = ∑_(j = 0)^(i) u[j] * v[i - j]`. -/
theorem triangular_toeplitz_multiply_causal {n : ℕ} (u v : Fin n → ℚ)
    (i : Fin n) :
    triangular_toeplitz_multiply n u v i =
      ∑ j : Fin n,
        if _h : (j : ℕ) ≤ (i : ℕ) then
          u j * v ⟨(i : ℕ) - (j : ℕ),
            Nat.lt_of_le_of_lt (Nat.sub_le _ _) i.isLt⟩
        else 0 := by
  rw [ttm_eq_range_sum]
  rw [← Fin.sum_univ_eq_sum_range
    (fun k : ℕ => if k ≤ (i : ℕ) then padF n u k * padF n v ((i : ℕ) - k)
      else 0) n]
  refine Finset.sum_congr rfl fun j _ => ?_
  by_cases hj : (j : ℕ) ≤ (i : ℕ)
  · rw [if_pos hj, dif_pos hj]
    unfold padF
    rw [dif_pos j.isLt,
      dif_pos (Nat.lt_of_le_of_lt (Nat.sub_le _ _) i.isLt)]
  · rw [if_neg hj, dif_neg hj]

/-! ### Kernel cache behaviour (claim C3)

The claim says the kernel is re-derived whenever the sequence length
*changes* from the cached length.  The code (`u.shape[0] > self.k.shape[-1]`)
re-derives only when the new length *exceeds* the cached length: a cache
built for length 2 is reused unchanged for a call of length 1. -/

/-- Counterexample to C3 as stated: with `A = [[2]]`, `b = (1)` and a cache
built for length `2`, a forward call of length `1` changes the length
(`1 ≠ 2`) yet the cache is *not* re-derived — it stays the length-2 kernel
instead of becoming `krylov 1 A b`. -/
theorem statespace_cache_shrink_counterexample :
    (1 : ℕ) ≠ (krylov 2 (Matrix.of ![![(2 : ℚ)]]) ![1]).length ∧
      stateSpaceCacheStep (Matrix.of ![![(2 : ℚ)]]) ![1]
          (some (krylov 2 (Matrix.of ![![(2 : ℚ)]]) ![1])) 1 ≠
        krylov 1 (Matrix.of ![![(2 : ℚ)]]) ![1] := by
  constructor
  · decide
  · decide

lemma krylov_take_of_le {n : ℕ} (L l : ℕ) (hL : 1 ≤ L) (hl : L ≤ l)
    (A : Matrix (Fin n) (Fin n) ℚ) (b : Fin n → ℚ) :
    (krylov l A b).take L = krylov L A b := by
  rw [krylov_eq_naive l (by omega) A b, krylov_eq_naive L hL A b]
  exact krylovNaive_take L l hl A b

/-- C3 (amended): the cached kernel is re-derived (via the discretized
matrices and `krylov`) exactly when the cache is empty or the input length
`L` exceeds the length the cache was built for; when `L` is at most the
cached length the cached tensor is reused unmodified, and the kernel
actually used — the cache sliced to its first `L` columns — still equals
the freshly derived length-`L` kernel. -/
theorem statespace_cache_policy {n : ℕ} (A : Matrix (Fin n) (Fin n) ℚ)
    (b : Fin n → ℚ) (L : ℕ) (k : List (Fin n → ℚ)) (hL : 1 ≤ L) :
    stateSpaceCacheStep A b none L = krylov L A b ∧
      (k.length < L → stateSpaceCacheStep A b (some k) L = krylov L A b) ∧
      (L ≤ k.length → stateSpaceCacheStep A b (some k) L = k) ∧
      (L ≤ k.length → k = krylov k.length A b →
        stateSpaceUsedKernel A b (some k) L = krylov L A b) := by
  refine ⟨rfl, fun h => ?_, fun h => ?_, fun h hk => ?_⟩
  · simp [stateSpaceCacheStep, h]
  · simp [stateSpaceCacheStep, Nat.not_lt.mpr h]
  · unfold stateSpaceUsedKernel
    rw [show stateSpaceCacheStep A b (some k) L = k by
      simp [stateSpaceCacheStep, Nat.not_lt.mpr h]]
    rw [hk]
    exact krylov_take_of_le L k.length hL h A b

/-- Witness for C3 (amended) at a concrete input: the length-2 cache for
`A = [[2]]`, `b = (1)` is reused for a length-1 call, and the sliced kernel
equals `krylov 1 A b`. -/
theorem statespace_cache_policy_witness :
    1 ≤ 1 ∧
      stateSpaceUsedKernel (Matrix.of ![![(2 : ℚ)]]) ![1]
          (some (krylov 2 (Matrix.of ![![(2 : ℚ)]]) ![1])) 1 =
        krylov 1 (Matrix.of ![![(2 : ℚ)]]) ![1] :=
  ⟨le_rfl, by
    have hlen : (krylov 2 (Matrix.of ![![(2 : ℚ)]]) ![1]).length = 2 := by
      norm_num [krylov, krylovGo]
    exact (statespace_cache_policy (Matrix.of ![![(2 : ℚ)]]) ![1] 1
          (krylov 2 (Matrix.of ![![(2 : ℚ)]]) ![1]) le_rfl).2.2.2
      (by rw [hlen]; omega) (by rw [hlen])⟩

/-! ### HiPPO entries (claim C8) -/

/-- C8: `hippo(N)` constructs the fixed HiPPO-LegT state matrices: the
returned `A` has entries
`A[i][j] = -√(2i+1) · √(2j+1) · ((-1)^(i-j) if i < j else 1)`, the returned
`B` has entries `B[i] = √(2i+1)`, and exactly these values are the `A` and
`B` transition buffers registered by `AdaptiveTransition.__init__`. -/
theorem hippo_legt_entries (N : ℕ) (i j : Fin N) :
    adaptiveTransitionA N i j =
        -(Real.sqrt (2 * (i : ℕ) + 1) * Real.sqrt (2 * (j : ℕ) + 1) *
          (if (i : ℕ) < (j : ℕ) then (-1 : ℝ) ^ ((i : ℤ) - (j : ℤ)) else 1)) ∧
      hippoB N i 0 = Real.sqrt (2 * (i : ℕ) + 1) ∧
      adaptiveTransitionB N i = Real.sqrt (2 * (i : ℕ) + 1) := by
  refine ⟨?_, rfl, rfl⟩
  show -(hippoR (i : ℕ) *
      (if (i : ℕ) < (j : ℕ) then (-1 : ℝ) ^ ((i : ℤ) - (j : ℤ)) else 1) *
    hippoR (j : ℕ)) = _
  unfold hippoR
  ring

/-! ### Gating and thresholding in `LSSLModel.forward` (claim C4) -/

/-- C4: `LSSLModel.forward` gates the stacked layers' output and thresholds
it: with `g = sigmoid(mean over the hidden dimension) * input` elementwise,
every element of the returned tensor equals `g` where `g` is at least
`0.99` times the maximum of `g` over its last-dimension row, and equals
zero otherwise (`rowMax` really is that maximum: an attained upper
bound). -/
theorem lssl_forward_gate_threshold {ι : Type} {b d : ℕ}
    (layers norms :
      List ((ι → Fin (b + 1) → Fin (d + 1) → ℚ) →
        ι → Fin (b + 1) → Fin (d + 1) → ℚ))
    (sigma : ℚ → ℚ) (u : ι → Fin (b + 1) → ℚ) (t : ι) (i : Fin (b + 1)) :
    lsslForward layers norms sigma u t i =
        (if lsslGateSignal layers norms sigma u t i ≥
            99 / 100 * rowMax (lsslGateSignal layers norms sigma u t) then
          lsslGateSignal layers norms sigma u t i
        else 0) ∧
      lsslGateSignal layers norms sigma u t i =
        sigma (meanHidden d (lsslStack layers norms (expandInput b d u)) t i)
          * u t i ∧
      lsslGateSignal layers norms sigma u t i ≤
        rowMax (lsslGateSignal layers norms sigma u t) ∧
      ∃ i0, rowMax (lsslGateSignal layers norms sigma u t) =
        lsslGateSignal layers norms sigma u t i0 := by
  refine ⟨rfl, rfl, ?_, ?_⟩
  · exact Finset.le_sup' _ (Finset.mem_univ i)
  · obtain ⟨i0, _, h0⟩ :=
      Finset.exists_mem_eq_sup' Finset.univ_nonempty
        (lsslGateSignal layers norms sigma u t)
    exact ⟨i0, h0⟩

/-! ### Residual connections in `LSSLModel.forward` (claim C9) -/

lemma foldl_eq_residualChain {α : Type} [Add α] :
    ∀ (ps : List ((α → α) × (α → α))) (x : α),
      ps.foldl (fun y p => y + p.1 (p.2 y)) x = residualChain ps x
  | [], _ => rfl
  | _ :: rest, _ => foldl_eq_residualChain rest _

/-- C9: `LSSLModel.forward` residual-connects its stacked layers: starting
from the input expanded to hidden width `d`, each of the `num_layers`
`(layer, norm)` pairs in order (the zip of two equal-length module lists
covers all of them) updates `x` to `x + layer(norm(x))`, and the forward
pass thresholds the sigmoid-gated hidden-dimension average of the result. -/
theorem lssl_residual_connection {ι : Type} {b d : ℕ}
    (layers norms :
      List ((ι → Fin (b + 1) → Fin (d + 1) → ℚ) →
        ι → Fin (b + 1) → Fin (d + 1) → ℚ))
    (sigma : ℚ → ℚ) (u : ι → Fin (b + 1) → ℚ)
    (h : layers.length = norms.length) :
    lsslStack layers norms (expandInput b d u) =
        residualChain (layers.zip norms) (expandInput b d u) ∧
      lsslForward layers norms sigma u =
        lsslThreshold (fun t i =>
          sigma (meanHidden d
              (residualChain (layers.zip norms) (expandInput b d u)) t i) *
            u t i) ∧
      (layers.zip norms).length = layers.length := by
  have hstack : lsslStack layers norms (expandInput b d u) =
      residualChain (layers.zip norms) (expandInput b d u) :=
    foldl_eq_residualChain _ _
  refine ⟨hstack, ?_, ?_⟩
  · show lsslThreshold (fun t i =>
        sigma (meanHidden d (lsslStack layers norms (expandInput b d u)) t i)
          * u t i) = _
    rw [hstack]
  · rw [List.length_zip, h, min_self]

/-- Witness for C9 at a concrete input: one identity layer and one identity
norm on `1×1×1` tensors. -/
theorem lssl_residual_connection_witness :
    [@id (Fin 1 → Fin 1 → Fin 1 → ℚ)].length =
        [@id (Fin 1 → Fin 1 → Fin 1 → ℚ)].length ∧
      ([@id (Fin 1 → Fin 1 → Fin 1 → ℚ)].zip
          [@id (Fin 1 → Fin 1 → Fin 1 → ℚ)]).length =
        [@id (Fin 1 → Fin 1 → Fin 1 → ℚ)].length :=
  ⟨rfl,
    (@lssl_residual_connection (Fin 1) 0 0 [@id (Fin 1 → Fin 1 → Fin 1 → ℚ)]
        [@id (Fin 1 → Fin 1 → Fin 1 → ℚ)] (fun q => q) (fun _ _ => 1)
        rfl).2.2⟩

/-! ### Rows with a non-positive gated maximum (claim C10) -/

/-- C10: for every input row whose gated signal
`g = sigmoid(mean) * input` has a non-positive maximum over the last
dimension, the returned row of `LSSLModel.forward` is entirely zero; in
particular a strictly negative maximum strictly fails its own threshold
`0.99 * max`. -/
theorem lssl_nonpositive_gate_max_zero_row {ι : Type} {b d : ℕ}
    (layers norms :
      List ((ι → Fin (b + 1) → Fin (d + 1) → ℚ) →
        ι → Fin (b + 1) → Fin (d + 1) → ℚ))
    (sigma : ℚ → ℚ) (u : ι → Fin (b + 1) → ℚ) (t : ι)
    (hmax : rowMax (lsslGateSignal layers norms sigma u t) ≤ 0) :
    (∀ i, lsslForward layers norms sigma u t i = 0) ∧
      (rowMax (lsslGateSignal layers norms sigma u t) < 0 →
        rowMax (lsslGateSignal layers norms sigma u t) <
          99 / 100 * rowMax (lsslGateSignal layers norms sigma u t)) := by
  constructor
  · intro i
    have hle : lsslGateSignal layers norms sigma u t i ≤
        rowMax (lsslGateSignal layers norms sigma u t) :=
      Finset.le_sup' _ (Finset.mem_univ i)
    show (if lsslGateSignal layers norms sigma u t i ≥
        99 / 100 * rowMax (lsslGateSignal layers norms sigma u t) then
      lsslGateSignal layers norms sigma u t i else 0) = 0
    split_ifs with hcond
    · linarith
    · rfl
  · intro hneg
    linarith

/-- Witness for C10 at a concrete input: no layers, `sigma = 1/2`
constant, input row constantly `-1`, so the gated row is constantly `-1/2`
with non-positive maximum, and the output row is zero. -/
theorem lssl_nonpositive_gate_max_zero_row_witness :
    rowMax (lsslGateSignal
          ([] : List ((Fin 1 → Fin 1 → Fin 1 → ℚ) →
            Fin 1 → Fin 1 → Fin 1 → ℚ)) [] (fun _ => 1 / 2)
          (fun _ _ => -1) 0) ≤ 0 ∧
      lsslForward
          ([] : List ((Fin 1 → Fin 1 → Fin 1 → ℚ) →
            Fin 1 → Fin 1 → Fin 1 → ℚ)) [] (fun _ => 1 / 2)
          (fun _ _ => -1) 0 0 = 0 := by
  have hg : lsslGateSignal
      ([] : List ((Fin 1 → Fin 1 → Fin 1 → ℚ) →
        Fin 1 → Fin 1 → Fin 1 → ℚ)) [] (fun _ => 1 / 2)
      (fun _ _ => -1) 0 = fun _ : Fin 1 => (-(1 / 2) : ℚ) := by
    funext i
    simp [lsslGateSignal, meanHidden, lsslStack, expandInput]
  have hmax : rowMax (lsslGateSignal
      ([] : List ((Fin 1 → Fin 1 → Fin 1 → ℚ) →
        Fin 1 → Fin 1 → Fin 1 → ℚ)) [] (fun _ => 1 / 2)
      (fun _ _ => -1) 0) ≤ 0 := by
    rw [hg]
    rw [show rowMax (fun _ : Fin 1 => (-(1 / 2) : ℚ)) = -(1 / 2) from
      Finset.sup'_const _ _]
    norm_num
  exact ⟨hmax,
    (lssl_nonpositive_gate_max_zero_row
        ([] : List ((Fin 1 → Fin 1 → Fin 1 → ℚ) →
          Fin 1 → Fin 1 → Fin 1 → ℚ)) [] (fun _ => 1 / 2)
        (fun _ _ => -1) 0 hmax).1 0⟩

/-! ### Unhandled propagation of a singular-solve exception (claim C7) -/

lemma lsslStackE_append {n L : ℕ}
    (ps1 ps2 : List (SSLayer n L × ((Fin L → ℚ) → Fin L → ℚ)))
    (x : Fin L → ℚ) :
    lsslStackE (ps1 ++ ps2) x = (lsslStackE ps1 x).bind (lsslStackE ps2) := by
  induction ps1 generalizing x with
  | nil => rfl
  | cons hd tl ih =>
    rcases hd with ⟨p, nf⟩
    simp only [List.cons_append, lsslStackE]
    cases ssForwardE p (nf x) with
    | none => rfl
    | some y => exact ih (x + y)

/-- C7: nothing catches library exceptions — if the linear solve inside
`LegTTransitionDense.inverse_mult` fails because `I - delta*A` is singular
(here `delta = dt/2`, the value every caller passes), the exception
propagates unhandled through `bilinear`, `gbt_A`, `gbt_B`,
`StateSpace.forward` and — whatever layers ran successfully before the
failing one — out of `LSSLModel.forward`, terminating the pass. -/
theorem singular_solve_propagates_unhandled {n L : ℕ} (p : SSLayer n L)
    (hn : 0 < n) (hdet : (1 - (1 / 2 * p.dt) • p.A).det = 0) :
    (∀ u, inverseMult p.A u (1 / 2 * p.dt) = none) ∧
      (∀ u v, bilinearT p.A p.B p.dt u v (1 / 2) = none) ∧
      gbtA p.A p.B p.dt = none ∧
      gbtB p.A p.B p.dt = none ∧
      (∀ u, ssForwardE p u = none) ∧
      (∀ ps1 nf ps2 sigma (u x : Fin L → ℚ), lsslStackE ps1 u = some x →
        lsslForwardE (ps1 ++ (p, nf) :: ps2) sigma u = none) := by
  have hinv : ∀ u, inverseMult p.A u (1 / 2 * p.dt) = none := by
    intro u
    unfold inverseMult linSolve
    rw [if_pos hdet]
  have hbil : ∀ u v, bilinearT p.A p.B p.dt u v (1 / 2) = none := by
    intro u v
    unfold bilinearT
    exact hinv _
  have hgA : gbtA p.A p.B p.dt = none := by
    unfold gbtA
    rw [dif_neg]
    push_neg
    refine ⟨⟨0, hn⟩, ?_⟩
    rw [hbil]
    simp
  have hgB : gbtB p.A p.B p.dt = none := hbil _ _
  have hker : ssKernel p.A p.B p.dt L = none := by
    unfold ssKernel
    rw [hgA]
  have hss : ∀ u, ssForwardE p u = none := by
    intro u
    unfold ssForwardE
    rw [hker]
    rfl
  refine ⟨hinv, hbil, hgA, hgB, hss, ?_⟩
  intro ps1 nf ps2 sigma u x hsome
  have hstep : lsslStackE ((p, nf) :: ps2) x = none := by
    simp only [lsslStackE]
    rw [hss (nf x)]
  unfold lsslForwardE
  rw [lsslStackE_append, hsome]
  show (lsslStackE ((p, nf) :: ps2) x).map _ = none
  rw [hstep]
  rfl

/-- Witness for C7 at a concrete input: the layer `ssLayerSingular`
(`A = [[-1]]`, `B = (1)` — the actual HiPPO-LegT values for `N = 1` — and
`dt = -2`) makes `I - (dt/2)*A = [[0]]` singular, and the whole
`LSSLModel.forward` pass dies on it. -/
theorem singular_solve_propagates_unhandled_witness :
    (0 < 1 ∧
        (1 - (1 / 2 * ssLayerSingular.dt) • ssLayerSingular.A).det = 0 ∧
        lsslStackE ([] : List (SSLayer 1 1 × ((Fin 1 → ℚ) → Fin 1 → ℚ)))
            ![0] = some ![0]) ∧
      lsslForwardE [(ssLayerSingular, fun x => x)] (fun q => q) ![0] =
        none := by
  have hdet : (1 - (1 / 2 * ssLayerSingular.dt) • ssLayerSingular.A).det
      = 0 := by
    show (1 - (1 / 2 * (-2 : ℚ)) • Matrix.of ![![(-1 : ℚ)]]).det = 0
    rw [Matrix.det_fin_one]
    simp [Matrix.sub_apply, Matrix.smul_apply, Matrix.one_apply_eq]
  refine ⟨⟨Nat.one_pos, hdet, rfl⟩, ?_⟩
  exact (singular_solve_propagates_unhandled ssLayerSingular Nat.one_pos
    hdet).2.2.2.2.2 [] (fun x => x) [] (fun q => q) ![0] ![0] rfl

/-! ### The bounding-box file (claim C5)

The claim says the script writes exactly one line per detected object.
The code opens `BBOX_yolo.txt` with mode `"w"` *inside* the per-mask loop
(truncating it every iteration, so only the last mask's contours survive),
iterates over all contours of that mask (not one line per object), and
follows every data line with an extra `f.write("\n")` — a blank line. -/

/-- Counterexample to C5 as stated: a single detected object (one mask,
one square contour) yields a file with two lines (data + blank), not
exactly one line per object. -/
theorem bbox_file_counterexample :
    ((bboxFileFinal 10 10 [[[((0 : ℤ), (0 : ℤ)), (2, 0), (2, 2), (0, 2)]]]
          none).getD []).length ≠
      ([[[((0 : ℤ), (0 : ℤ)), (2, 0), (2, 2), (0, 2)]]] :
          List (List Contour)).length := by
  decide

lemma bboxLinesOfMask_length (m : List Contour) (W H : ℤ) :
    (bboxLinesOfMask m W H).length = 2 * m.length := by
  induction m with
  | nil => rfl
  | cons c cs ih =>
    simp only [bboxLinesOfMask] at ih ⊢
    simp only [List.flatMap_cons, List.length_append, List.length_cons,
      List.length_nil, ih, List.length_map]
    omega

lemma bboxFileFinal_eq_last (W H : ℤ) :
    ∀ (masks : List (List Contour)) (st : Option (List BLine))
      (hne : masks ≠ []), (∀ m ∈ masks, m ≠ []) →
      bboxFileFinal W H masks st =
        some (bboxLinesOfMask (masks.getLast hne) W H) := by
  intro masks
  induction masks with
  | nil => intro st hne _; exact absurd rfl hne
  | cons m rest ih =>
    intro st hne hall
    have hm : m ≠ [] := hall m (List.mem_cons_self m rest)
    cases m with
    | nil => exact absurd rfl hm
    | cons q qs =>
      show bboxFileFinal W H rest (some (bboxLinesOfMask (q :: qs) W H)) = _
      cases rest with
      | nil => rfl
      | cons r rs =>
        rw [ih (some (bboxLinesOfMask (q :: qs) W H)) (by simp)
          (fun x hx => hall x (List.mem_cons_of_mem _ hx))]
        rw [List.getLast_cons (by simp : r :: rs ≠ [])]

/-- C5 (amended): the bounding-box file is truncated and rewritten on each
mask iteration, so after the script it holds, for each contour of the
*last* mask, one data line `0 cx cy w h` — with `cx = (x + w/2)/W`,
`cy = (y + h/2)/H` and the width and height normalised by the image width
and height — followed by one blank line (two lines per contour, not one
line per detected object). -/
theorem bbox_file_last_mask_two_lines_per_contour
    (masks : List (List Contour)) (W H : ℤ) (hne : masks ≠ [])
    (hall : ∀ m ∈ masks, m ≠ []) :
    bboxFileFinal W H masks none =
        some (bboxLinesOfMask (masks.getLast hne) W H) ∧
      (bboxLinesOfMask (masks.getLast hne) W H).length =
        2 * (masks.getLast hne).length ∧
      ∀ m : List Contour, bboxLinesOfMask m W H = m.flatMap fun c =>
        [BLine.box 0
            ((((boundingRect c).x : ℚ) + ((boundingRect c).w : ℚ) / 2) /
              (W : ℚ))
            ((((boundingRect c).y : ℚ) + ((boundingRect c).h : ℚ) / 2) /
              (H : ℚ))
            (((boundingRect c).w : ℚ) / (W : ℚ))
            (((boundingRect c).h : ℚ) / (H : ℚ)),
          BLine.blank] :=
  ⟨bboxFileFinal_eq_last W H masks none hne hall,
    bboxLinesOfMask_length _ W H, fun _ => rfl⟩

/-- Witness for C5 (amended) at the concrete two-mask scene: the final file
is exactly the last mask's lines. -/
theorem bbox_file_last_mask_two_lines_per_contour_witness :
    masksExample ≠ [] ∧ (∀ m ∈ masksExample, m ≠ []) ∧
      bboxFileFinal 10 10 masksExample none =
        some (bboxLinesOfMask [[(1, 1), (3, 1), (3, 4), (1, 4)]] 10 10) :=
  ⟨by decide, by decide,
    (bbox_file_last_mask_two_lines_per_contour masksExample 10 10
        (by decide) (by decide)).1⟩

/-! ### The polygon file (claim C6) -/

lemma pickMax_mem {α : Type} (f : α → ℚ) (l : List α) :
    ∀ a, pickMax f a l ∈ a :: l := by
  induction l with
  | nil => intro a; exact List.mem_singleton.mpr rfl
  | cons x xs ih =>
    intro a
    have hstep : pickMax f a (x :: xs) =
        pickMax f (if f a < f x then x else a) xs := rfl
    rw [hstep]
    rcases List.mem_cons.mp (ih (if f a < f x then x else a)) with h | h
    · rw [h]
      split_ifs
      · exact List.mem_cons_of_mem _ (List.mem_cons_self _ _)
      · exact List.mem_cons_self _ _
    · exact List.mem_cons_of_mem _ (List.mem_cons_of_mem _ h)

lemma le_pickMax {α : Type} (f : α → ℚ) (l : List α) :
    ∀ a, ∀ b ∈ a :: l, f b ≤ f (pickMax f a l) := by
  induction l with
  | nil =>
    intro a b hb
    rw [List.mem_singleton.mp hb]
    exact le_rfl
  | cons x xs ih =>
    intro a b hb
    have hstep : pickMax f a (x :: xs) =
        pickMax f (if f a < f x then x else a) xs := rfl
    rw [hstep]
    have hbase := ih (if f a < f x then x else a)
    have ha : f a ≤ f (if f a < f x then x else a) := by
      split_ifs with hf
      · exact le_of_lt hf
      · exact le_rfl
    have hx : f x ≤ f (if f a < f x then x else a) := by
      split_ifs with hf
      · exact le_rfl
      · exact le_of_not_lt hf
    rcases List.mem_cons.mp hb with h | h
    · exact le_trans (h ▸ ha) (hbase _ (List.mem_cons_self _ _))
    · rcases List.mem_cons.mp h with h2 | h2
      · exact le_trans (h2 ▸ hx) (hbase _ (List.mem_cons_self _ _))
      · exact hbase b (List.mem_cons_of_mem _ h2)

lemma largestContour_spec (m : List Contour) (hm : m ≠ []) :
    largestContour m ∈ m ∧
      ∀ c ∈ m, contourArea c ≤ contourArea (largestContour m) := by
  cases m with
  | nil => exact absurd rfl hm
  | cons c cs =>
    exact ⟨pickMax_mem contourArea cs c,
      fun c2 h2 => le_pickMax contourArea cs c c2 h2⟩

lemma maskFileFinal_eq (W H : ℤ) :
    ∀ (masks : List (List Contour)) (acc : List (List ℚ)),
      (∀ m ∈ masks, m ≠ []) →
      maskFileFinal W H masks acc =
        acc ++ masks.map fun m => polyLine (largestContour m) W H := by
  intro masks
  induction masks with
  | nil => intro acc _; simp [maskFileFinal]
  | cons m rest ih =>
    intro acc hall
    have hm : m ≠ [] := hall m (List.mem_cons_self _ _)
    cases m with
    | nil => exact absurd rfl hm
    | cons c cs =>
      show maskFileFinal W H rest
          (acc ++ [polyLine (pickMax contourArea c cs) W H]) = _
      rw [ih _ (fun x hx => hall x (List.mem_cons_of_mem _ hx))]
      simp [largestContour, maxByArea, List.append_assoc]

/-- C6: on a fresh run the polygon file ends with exactly one line per
detected object (mask), in order; line `k` is the flattened
`x/W, y/H`-normalised point list of mask `k`'s largest contour — an actual
contour of that mask of maximal `contourArea`. -/
theorem mask_file_one_line_per_object (masks : List (List Contour))
    (W H : ℤ) (hall : ∀ m ∈ masks, m ≠ []) :
    maskFileFinal W H masks [] =
        (masks.map fun m => polyLine (largestContour m) W H) ∧
      (maskFileFinal W H masks []).length = masks.length ∧
      ∀ m ∈ masks, largestContour m ∈ m ∧
        ∀ c ∈ m, contourArea c ≤ contourArea (largestContour m) := by
  have h1 := maskFileFinal_eq W H masks [] hall
  rw [List.nil_append] at h1
  exact ⟨h1, by rw [h1, List.length_map],
    fun m hm => largestContour_spec m (hall m hm)⟩

/-- Witness for C6 at the concrete two-mask scene: two objects, two
polygon lines. -/
theorem mask_file_one_line_per_object_witness :
    (∀ m ∈ masksExample, m ≠ []) ∧
      (maskFileFinal 10 10 masksExample []).length = masksExample.length :=
  ⟨by decide,
    (mask_file_one_line_per_object masksExample 10 10 (by decide)).2.1⟩

end LssCfar
